import Mathlib

/-!
# hd500: reassembly and decoding of Line6 POD HD500 hwdep messages

A shallow embedding of the message core of `src/hd500.c`:
`print_buf`, `reset_message`, `message_complete`, `print_message` and the
loop of `read_message`, followed by theorems about them.

Modelling conventions.

* A byte (`unsigned char`) is a `Fin 256`.
* Storage reached through a C pointer (`msg`, the local `buf`) is a function
  from index to byte; the sizes of the arrays (`8192` for both) are checked
  where the code writes.
* Standard output is the list of its newline-terminated lines, each line
  without its final newline; the bytes that `%s` passes through are split at
  every newline among them.
* `printf("%f", ...)` belongs to the C library; its rendering of an IEEE-754
  single is the parameter `fmt_f`, a function of the 32-bit pattern.
* The host is little-endian (the `uint32_t *` view of `msg`).
-/

namespace HD500

/-- One `unsigned char`. -/
abbrev Byte := Fin 256

/-- Bytes reached through an `unsigned char *`. -/
abbrev Mem := Nat → Byte

/-- Number of elements of `unsigned char msg[8192]`. -/
def MSG_CAPACITY : Nat := 8192

/-- Number of elements of the local `unsigned char buf[8192]` of `read_message`. -/
def BUF_CAPACITY : Nat := 8192

/-- The conversions `%.4lx` and `%.2x` of `printf` for a non-negative argument:
lower-case hexadecimal with at least `prec` digits, padded with zeros on the left. -/
def fmt_x (prec n : Nat) : List Char :=
  let ds := Nat.toDigits 16 n
  List.replicate (prec - ds.length) '0' ++ ds

/-- The conversion `%d` of `printf` applied to a `uint32_t` argument `v < 2^32`:
the argument is fetched as an `int`, so the 32 bits are read in two's complement. -/
def fmt_d (v : Nat) : String :=
  if v < 2 ^ 31 then Nat.repr v else "-" ++ Nat.repr (2 ^ 32 - v)

/-- The conversion `%s` applied to a NUL-terminated `char` array: the bytes
before the first zero byte, each passed through as the character of that code. -/
def fmt_s (name : List Byte) : String :=
  String.mk ((name.takeWhile (fun b => b.val != 0)).map (fun b => Char.ofNat b.val))

/-- The lines of a text that `printf` writes followed by a final newline: the
pieces of the text between its newline characters. -/
def stdout_lines : List Char → List String
  | [] => [""]
  | c :: cs =>
    if c = '\n' then "" :: stdout_lines cs
    else
      match stdout_lines cs with
      | [] => [String.mk [c]]
      | l :: ls => String.mk (c :: l.data) :: ls

/-- Inner loop of `print_buf`:
`for (j = i; (j < i + 16) && (j < size); j++) printf(" %.2x", buf[j]);`
started at `j`, returning the characters printed. The first argument bounds the
number of iterations. -/
def print_buf_bytes (buf : Mem) (i size : Nat) : Nat → Nat → List Char
  | 0, _ => []
  | fuel + 1, j =>
    if j < i + 16 ∧ j < size then
      (' ' :: fmt_x 2 (buf j).val) ++ print_buf_bytes buf i size fuel (j + 1)
    else []

/-- Outer loop of `print_buf`: `for (i = ...; i < size; i += 16) { ... }`
started at `i`, returning the lines printed. The first argument bounds the
number of iterations. -/
def print_buf_rows (buf : Mem) (start size : Nat) : Nat → Nat → List String
  | 0, _ => []
  | fuel + 1, i =>
    if i < size then
      String.mk (fmt_x 4 (i + start) ++ ':' :: print_buf_bytes buf i size 16 i)
        :: print_buf_rows buf start size fuel (i + 16)
    else []

/-- `print_buf(buf, start, size)` for `0 <= start` and `0 <= size`, both within
the range of `int`. -/
def print_buf (buf : Mem) (start size : Nat) : List String :=
  print_buf_rows buf start size size 0

/-- The globals `msg` and `msg_size`. -/
structure State where
  msg : Mem
  msg_size : Nat

/-- `reset_message()`: only `msg_size` is cleared. -/
def reset_message (st : State) : State :=
  { st with msg_size := 0 }

/-- `int expected_size = (msg[0] + (msg[1] << 8)) * 4 + 4;` -/
def expected_size (msg : Mem) : Nat :=
  ((msg 0).val + (msg 1).val * 256) * 4 + 4

/-- `message_complete()`. -/
def message_complete (st : State) : Bool :=
  decide (expected_size st.msg = st.msg_size)

/-- `msg32[k]` for `uint32_t *msg32 = (uint32_t *)msg` on a little-endian host. -/
def msg32 (msg : Mem) (k : Nat) : Nat :=
  (msg (4 * k)).val + (msg (4 * k + 1)).val * 256
    + (msg (4 * k + 2)).val * 65536 + (msg (4 * k + 3)).val * 16777216

/-- `print_message()`: the lines it prints. -/
def print_message (fmt_f : Nat → String) (st : State) : List String :=
  if st.msg_size < 8 then
    print_buf st.msg 0 st.msg_size
  else if msg32 st.msg 1 = 0x23004000 then
    ["preset changed"]
  else if msg32 st.msg 1 = 0x2c004000 then
    ["setlist: " ++ fmt_d (msg32 st.msg 2)]
  else if msg32 st.msg 1 = 0x27004000 then
    ["preset: " ++ fmt_d (msg32 st.msg 2)]
  else if msg32 st.msg 1 = 0x35004000 then
    ["pedal: " ++ fmt_f (msg32 st.msg 4)]
  else if msg32 st.msg 1 = 0x16004000 then
    ["tempo: " ++ fmt_f (msg32 st.msg 5)]
  else if msg32 st.msg 1 = 0x01004000 then
    stdout_lines ("preset: " ++ fmt_s ((List.range 16).map (fun k => st.msg (8 + k)))).data
  else if msg32 st.msg 1 = 0x13004000 then
    ["Footswitch " ++ fmt_d (msg32 st.msg 3) ++ " "
      ++ (if msg32 st.msg 4 ≠ 0 then "enabled" else "disabled")]
  else
    print_buf st.msg 0 st.msg_size

/-- `memcpy(dst + off, src + soff, n)`. -/
def memcpy (dst : Mem) (off : Nat) (src : Mem) (soff n : Nat) : Mem :=
  fun i => if off ≤ i ∧ i < off + n then src (soff + (i - off)) else dst i

/-- One call of `snd_hwdep_read(handle, buf, sizeof(buf))`: the return value
(the number of bytes delivered, at most `sizeof(buf)`, or a negative error code)
and the contents of the local `buf` after the call; the bytes of `buf` from
index `ret` on are whatever the array held before. -/
structure Read where
  buf : Mem
  ret : Int

/-- `int data_size = buf[0] + (buf[1] << 8);` -/
def Read.data_size (r : Read) : Nat :=
  (r.buf 0).val + (r.buf 1).val * 256

/-- The statements `memcpy(msg + msg_size, buf + 4, data_size); msg_size += data_size;`. -/
def append_payload (st : State) (r : Read) : State :=
  ⟨memcpy st.msg st.msg_size r.buf 4 r.data_size, st.msg_size + r.data_size⟩

/-- Which way one iteration of the loop of `read_message` went: `ret <= 0`, a
bogus packet, a payload appended without completing the message, or a payload
appended that completed it. -/
inductive Outcome where
  | nothing
  | bogus
  | idle
  | complete
  deriving DecidableEq, Repr

/-- What one iteration of the loop of `read_message` leaves behind. -/
structure Iter where
  st : State
  outcome : Outcome
  out : List String

/-- Body of the `do { ... } while (ret >= 0)` loop of `read_message` for one
read. The result is `none` when the `memcpy` would write past the end of `msg`. -/
def read_iter (fmt_f : Nat → String) (st : State) (r : Read) : Option Iter :=
  if 0 < r.ret then
    if (r.data_size : Int) ≠ r.ret - 4 then
      some ⟨reset_message st, Outcome.bogus,
        "Got bogus packet, dump:" :: print_buf r.buf 0 r.ret.toNat⟩
    else if st.msg_size + r.data_size ≤ MSG_CAPACITY then
      if message_complete (append_payload st r) then
        some ⟨reset_message (append_payload st r), Outcome.complete,
          print_message fmt_f (append_payload st r)⟩
      else
        some ⟨append_payload st r, Outcome.idle, []⟩
    else
      none
  else
    some ⟨st, Outcome.nothing, []⟩

/-- What a run of the loop of `read_message` leaves behind: the final globals,
the outcome of every iteration and all the lines printed. -/
structure Run where
  st : State
  outcomes : List Outcome
  out : List String

/-- The loop of `read_message()` over the successive results of `snd_hwdep_read`:
it goes on while `ret >= 0`. -/
def read_message (fmt_f : Nat → String) : State → List Read → Option Run
  | st, [] => some ⟨st, [], []⟩
  | st, r :: rs =>
    match read_iter fmt_f st r with
    | none => none
    | some it =>
      if 0 ≤ r.ret then
        match read_message fmt_f it.st rs with
        | none => none
        | some run => some ⟨run.st, it.outcome :: run.outcomes, it.out ++ run.out⟩
      else
        some ⟨it.st, [it.outcome], it.out⟩

/-- Storage whose first bytes are `bs` and whose other bytes are zero. -/
def memOf (bs : List Byte) : Mem := fun i => bs.getD i 0

/-- Hexadecimal text of an offset, zero-padded to four digits (spec, section 6:
"offset zero-padded to 4 hex digits"); offsets of five digits and more are
written in full. -/
def hex_offset (v : Nat) : List Char :=
  if v < 65536 then
    [Nat.digitChar (v / 4096), Nat.digitChar (v / 256 % 16),
      Nat.digitChar (v / 16 % 16), Nat.digitChar (v % 16)]
  else Nat.toDigits 16 v

/-- Row `k` of a hex dump as the spec words it (sections 4.3 and 6): the offset
`s + 16 * k`, a colon, then the bytes `16 * k .. min (16 * k + 16) n - 1`, each as
a space and two hex digits. -/
def hex_row (buf : Mem) (s n k : Nat) : String :=
  String.mk (hex_offset (s + 16 * k) ++ ':' ::
    (List.range' (16 * k) (min (16 * k + 16) n - 16 * k)).flatMap
      (fun j => [' ', Nat.digitChar ((buf j).val / 16), Nat.digitChar ((buf j).val % 16)]))

/-- Little-endian unsigned 32-bit value at byte offset `off` (spec, section 3:
"all multi-byte scalars little-endian"). -/
def u32_le (m : Mem) (off : Nat) : Nat :=
  (m off).val + 256 * (m (off + 1)).val + 65536 * (m (off + 2)).val
    + 16777216 * (m (off + 3)).val

/-- A fragment is valid when its declared payload length is `bytes_read - 4`
(spec, section 3). -/
abbrev Read.valid (r : Read) : Prop :=
  0 < r.ret ∧ (r.data_size : Int) = r.ret - 4

/-- The payload of a fragment: the `data_size` bytes after the four bytes of framing. -/
def Read.payload (r : Read) : List Byte :=
  (List.range r.data_size).map (fun k => r.buf (4 + k))

/-- The bytes accumulated in the message buffer: `msg[0 .. msg_size - 1]`. -/
def accumulated (st : State) : List Byte :=
  (List.range st.msg_size).map st.msg

/-- The declared total length of a message, from its first two bytes
(spec, section 3: `total = (b0 + b1*256) * 4 + 4`). -/
def declared_total (p : List Byte) : Nat :=
  ((p.getD 0 0).val + (p.getD 1 0).val * 256) * 4 + 4

/-- Two valid fragments carrying the 12-byte message
`02 00 00 00 00 40 00 27 05 00 00 00`, six bytes each. -/
def two_fragment_reads : List Read :=
  [⟨memOf [6, 0, 0, 0, 2, 0, 0, 0, 0, 0x40], 10⟩, ⟨memOf [6, 0, 0, 0, 0, 0x27, 5, 0, 0, 0], 10⟩]

/-- Two stores hold the same bytes at the indices below `n`. -/
def agree (m1 m2 : Mem) (n : Nat) : Prop :=
  ∀ i, i < n → m1 i = m2 i

/-- Two valid fragments of a message with declared total 8196 (`00 08` are its
first two bytes): a read of 8192 bytes with 8188 bytes of payload, then a read of
12 bytes with the 8 bytes left. -/
def oversized_message_reads : List Read :=
  [⟨memOf [0xfc, 0x1f, 0, 0, 0, 8], 8192⟩, ⟨memOf [8, 0, 0, 0], 12⟩]

/-- A stream of reads in which no valid fragment carries the message in flight
past its declared total, nor past the 8192 bytes of the buffer. `acc` holds the
bytes of the message in flight (spec, section 3, Message Buffer): a malformed
fragment discards them, a valid fragment appends its payload, and a message that
reaches its declared total is handed over and the buffer emptied. -/
def well_formed_stream : List Byte → List Read → Bool
  | _, [] => true
  | acc, r :: rs =>
    if 0 < r.ret then
      if (r.data_size : Int) ≠ r.ret - 4 then well_formed_stream [] rs
      else
        (decide ((acc ++ r.payload).length ≤ declared_total (acc ++ r.payload))
          && decide ((acc ++ r.payload).length ≤ MSG_CAPACITY))
          && well_formed_stream
            (if (acc ++ r.payload).length = declared_total (acc ++ r.payload) then []
              else acc ++ r.payload) rs
    else well_formed_stream acc rs

/-! ## Formatting lemmas -/

set_option maxRecDepth 100000 in
theorem fmt_x_byte : ∀ b : Byte,
    fmt_x 2 b.val = [Nat.digitChar (b.val / 16), Nat.digitChar (b.val % 16)] := by
  decide

theorem toDigitsCore_16_step (fuel n : Nat) (ds : List Char) (h : n < fuel) :
    Nat.toDigitsCore 16 fuel n ds =
      if n < 16 then Nat.digitChar n :: ds
      else Nat.toDigitsCore 16 (fuel - 1) (n / 16) (Nat.digitChar (n % 16) :: ds) := by
  cases fuel with
  | zero => omega
  | succ f =>
    simp only [Nat.toDigitsCore, Nat.add_sub_cancel]
    by_cases h16 : n < 16
    · have h0 : n / 16 = 0 := by omega
      have h1 : n % 16 = n := by omega
      simp [h16, h0, h1]
    · have h0 : n / 16 ≠ 0 := by omega
      simp [h16, h0]

theorem toDigitsCore_length_ge (b : Nat) : ∀ (fuel n : Nat) (ds : List Char),
    ds.length ≤ (Nat.toDigitsCore b fuel n ds).length := by
  intro fuel
  induction fuel with
  | zero => intro n ds; simp [Nat.toDigitsCore]
  | succ f ih =>
    intro n ds
    simp only [Nat.toDigitsCore]
    split
    · simp
    · exact Nat.le_trans (by simp) (ih _ _)

theorem fmt_x_offset (v : Nat) : fmt_x 4 v = hex_offset v := by
  unfold fmt_x hex_offset Nat.toDigits
  rw [toDigitsCore_16_step _ _ _ (Nat.lt_succ_self v)]
  by_cases h1 : v < 16
  · have e1 : v / 4096 = 0 := by omega
    have e2 : v / 256 % 16 = 0 := by omega
    have e3 : v / 16 % 16 = 0 := by omega
    have e4 : v % 16 = v := by omega
    have h4 : v < 65536 := by omega
    simp [h1, h4, e1, e2, e3, e4]
    rfl
  rw [if_neg h1, toDigitsCore_16_step _ _ _ (by omega)]
  by_cases h2 : v < 256
  · have e1 : v / 4096 = 0 := by omega
    have e2 : v / 256 % 16 = 0 := by omega
    have e3 : v / 16 % 16 = v / 16 := by omega
    have g : v / 16 < 16 := by omega
    have h4 : v < 65536 := by omega
    simp [g, h4, e1, e2, e3]
    rfl
  have g2 : ¬ v / 16 < 16 := by omega
  rw [if_neg g2, toDigitsCore_16_step _ _ _ (by omega)]
  have q2 : v / 16 / 16 = v / 256 := by omega
  by_cases h3 : v < 4096
  · have e1 : v / 4096 = 0 := by omega
    have e2 : v / 256 % 16 = v / 256 := by omega
    have g : v / 16 / 16 < 16 := by omega
    have h4 : v < 65536 := by omega
    rw [if_pos g]
    simp [h4, e1, e2, q2]
    rfl
  have g3 : ¬ v / 16 / 16 < 16 := by omega
  rw [if_neg g3, toDigitsCore_16_step _ _ _ (by omega)]
  have q3 : v / 16 / 16 / 16 = v / 4096 := by omega
  have r3 : v / 16 / 16 % 16 = v / 256 % 16 := by omega
  by_cases h4 : v < 65536
  · have g : v / 16 / 16 / 16 < 16 := by omega
    rw [if_pos g]
    simp [h4, q3, r3]
  · have g : ¬ v / 16 / 16 / 16 < 16 := by omega
    rw [if_neg g, if_neg h4]
    have hl := toDigitsCore_length_ge 16 (v.succ - 1 - 1 - 1 - 1) (v / 16 / 16 / 16 / 16)
      [Nat.digitChar (v / 16 / 16 / 16 % 16), Nat.digitChar (v / 16 / 16 % 16),
        Nat.digitChar (v / 16 % 16), Nat.digitChar (v % 16)]
    revert hl
    generalize Nat.toDigitsCore 16 (v.succ - 1 - 1 - 1 - 1) (v / 16 / 16 / 16 / 16)
      [Nat.digitChar (v / 16 / 16 / 16 % 16), Nat.digitChar (v / 16 / 16 % 16),
        Nat.digitChar (v / 16 % 16), Nat.digitChar (v % 16)] = ds
    intro hl
    simp only [List.length_cons, List.length_nil] at hl
    have hz : 4 - ds.length = 0 := by omega
    simp [hz]

/-! ## The hex dump -/

theorem print_buf_bytes_eq (buf : Mem) (i size : Nat) : ∀ fuel j : Nat,
    min (i + 16) size - j ≤ fuel →
    print_buf_bytes buf i size fuel j =
      (List.range' j (min (i + 16) size - j)).flatMap
        (fun t => [' ', Nat.digitChar ((buf t).val / 16), Nat.digitChar ((buf t).val % 16)]) := by
  intro fuel
  induction fuel with
  | zero =>
    intro j h
    have h0 : min (i + 16) size - j = 0 := by omega
    simp [print_buf_bytes, h0]
  | succ f ih =>
    intro j h
    by_cases hc : j < i + 16 ∧ j < size
    · have hs : min (i + 16) size - j = (min (i + 16) size - (j + 1)) + 1 := by omega
      rw [print_buf_bytes, if_pos hc, ih (j + 1) (by omega), hs, List.range'_succ, fmt_x_byte]
      simp
    · have h0 : min (i + 16) size - j = 0 := by omega
      rw [print_buf_bytes, if_neg hc, h0]
      simp

theorem print_buf_rows_eq (buf : Mem) (start size : Nat) : ∀ fuel k : Nat,
    (size + 15) / 16 - k ≤ fuel →
    print_buf_rows buf start size fuel (16 * k) =
      (List.range' k ((size + 15) / 16 - k)).map (hex_row buf start size) := by
  intro fuel
  induction fuel with
  | zero =>
    intro k h
    have h0 : (size + 15) / 16 - k = 0 := by omega
    simp [print_buf_rows, h0]
  | succ f ih =>
    intro k h
    by_cases hc : 16 * k < size
    · have hs : (size + 15) / 16 - k = ((size + 15) / 16 - (k + 1)) + 1 := by omega
      have hk : 16 * k + 16 = 16 * (k + 1) := by ring
      rw [print_buf_rows, if_pos hc, hk, ih (k + 1) (by omega), hs, List.range'_succ,
        List.map_cons, fmt_x_offset, print_buf_bytes_eq buf (16 * k) size 16 (16 * k) (by omega)]
      simp [hex_row, Nat.add_comm, hk]
    · have h0 : (size + 15) / 16 - k = 0 := by omega
      rw [print_buf_rows, if_neg hc, h0]
      simp

theorem print_buf_eq_rows (buf : Mem) (s n : Nat) :
    print_buf buf s n = (List.range ((n + 15) / 16)).map (hex_row buf s n) := by
  have h := print_buf_rows_eq buf s n n 0 (by omega)
  simpa [print_buf, List.range_eq_range'] using h

/-- C8. For every buffer, base offset `s` and size `n`, `print_buf` prints
exactly `ceil(n / 16)` rows, and row `k` is the offset `s + 16 * k` in hex padded
to four digits, a colon, and the bytes `16 * k .. min (16 * k + 16) n - 1` in
order, each as a space and two hex digits. An empty buffer gives no rows; 20 bytes
from offset 0 give two rows, the second with the offset `0010` and the four bytes
16..19. -/
theorem print_buf_row_structure (buf : Mem) (s n : Nat) :
    print_buf buf s n = (List.range ((n + 15) / 16)).map (hex_row buf s n)
      ∧ (print_buf buf s n).length = (n + 15) / 16
      ∧ print_buf buf s 0 = []
      ∧ print_buf buf 0 20 = [hex_row buf 0 20 0,
          String.mk ("0010:".data ++
            [' ', Nat.digitChar ((buf 16).val / 16), Nat.digitChar ((buf 16).val % 16),
              ' ', Nat.digitChar ((buf 17).val / 16), Nat.digitChar ((buf 17).val % 16),
              ' ', Nat.digitChar ((buf 18).val / 16), Nat.digitChar ((buf 18).val % 16),
              ' ', Nat.digitChar ((buf 19).val / 16), Nat.digitChar ((buf 19).val % 16)])] := by
  refine ⟨print_buf_eq_rows buf s n, ?_, ?_, ?_⟩
  · rw [print_buf_eq_rows]
    simp
  · rw [print_buf_eq_rows]
    rfl
  · rw [print_buf_eq_rows]
    simp [List.range_succ, hex_row, List.range'_succ, hex_offset]
    rfl

/-! ## The decoder -/

theorem msg32_eq_u32_le (m : Mem) (k : Nat) : msg32 m k = u32_le m (4 * k) := by
  unfold msg32 u32_le
  ring

/-- What `print_message` prints for the two tags with an index field: the field
goes through `%d`. -/
theorem print_message_index (fmt_f : Nat → String) (st : State) (hsz : 8 ≤ st.msg_size) :
    (u32_le st.msg 4 = 0x27004000 →
        print_message fmt_f st = ["preset: " ++ fmt_d (u32_le st.msg 8)])
      ∧ (u32_le st.msg 4 = 0x2c004000 →
        print_message fmt_f st = ["setlist: " ++ fmt_d (u32_le st.msg 8)]) := by
  have ht : msg32 st.msg 1 = u32_le st.msg 4 := msg32_eq_u32_le st.msg 1
  have hv : msg32 st.msg 2 = u32_le st.msg 8 := msg32_eq_u32_le st.msg 2
  constructor <;> intro h <;> unfold print_message <;>
    rw [if_neg (by omega), ht, hv, h] <;> simp

/-- C4, the code at the failing input: after the 12-byte message `preset: 5`, the
complete 8-byte message `01 00 00 00 00 40 00 27` is printed as `preset: 5`, from
the bytes 8..11 that the earlier message left in `msg`, where the claim requires
the hex dump `0000: 01 00 00 00 00 40 00 27`. -/
theorem truncated_preset_reads_stale_index :
    (read_message (fun _ => "") ⟨memOf [], 0⟩
        [⟨memOf [0x0c, 0, 0, 0, 2, 0, 0, 0, 0, 0x40, 0, 0x27, 5, 0, 0, 0], 16⟩,
          ⟨memOf [0x08, 0, 0, 0, 1, 0, 0, 0, 0, 0x40, 0, 0x27], 12⟩]).map
          (fun run => (run.outcomes, run.out))
      = some ([Outcome.complete, Outcome.complete], ["preset: 5", "preset: 5"])
    ∧ print_buf (memOf [1, 0, 0, 0, 0, 0x40, 0, 0x27, 5, 0, 0, 0]) 0 8
      = ["0000: 01 00 00 00 00 40 00 27"] := by
  decide

/-- C6, the code at the failing input: the complete 12-byte message
`02 00 00 00 00 40 00 27 ff ff ff ff` carries the index `4294967295` and is
printed as `preset: -1`. -/
theorem preset_index_printed_signed :
    (read_message (fun _ => "") ⟨memOf [], 0⟩
        [⟨memOf [0x0c, 0, 0, 0, 2, 0, 0, 0, 0, 0x40, 0, 0x27, 0xff, 0xff, 0xff, 0xff], 16⟩]).map
          (fun run => (run.outcomes, run.out))
      = some ([Outcome.complete], ["preset: -1"])
    ∧ u32_le (memOf [2, 0, 0, 0, 0, 0x40, 0, 0x27, 0xff, 0xff, 0xff, 0xff]) 8 = 4294967295 := by
  decide

/-- C7. For every message of at least 20 bytes with tag `0x13004000`,
`print_message` prints `Footswitch <index> <state>` with the index taken from the
u32 at offset 12, and the state is `disabled` exactly when the u32 at offset 16 is
zero, that is when the bytes 16..19 are all zero, and `enabled` otherwise. -/
theorem footswitch_mapping (fmt_f : Nat → String) (st : State) (hsz : 20 ≤ st.msg_size)
    (htag : u32_le st.msg 4 = 0x13004000) :
    ∃ state : String,
      print_message fmt_f st = ["Footswitch " ++ fmt_d (u32_le st.msg 12) ++ " " ++ state]
        ∧ (state = "disabled" ↔ u32_le st.msg 16 = 0)
        ∧ (state = "enabled" ↔ u32_le st.msg 16 ≠ 0)
        ∧ (u32_le st.msg 16 = 0 ↔
            st.msg 16 = 0 ∧ st.msg 17 = 0 ∧ st.msg 18 = 0 ∧ st.msg 19 = 0) := by
  have ht : msg32 st.msg 1 = u32_le st.msg 4 := msg32_eq_u32_le st.msg 1
  have hi : msg32 st.msg 3 = u32_le st.msg 12 := msg32_eq_u32_le st.msg 3
  have hv : msg32 st.msg 4 = u32_le st.msg 16 := msg32_eq_u32_le st.msg 4
  have hbytes : u32_le st.msg 16 = 0 ↔
      st.msg 16 = 0 ∧ st.msg 17 = 0 ∧ st.msg 18 = 0 ∧ st.msg 19 = 0 := by
    have e1 : st.msg (16 + 1) = st.msg 17 := rfl
    have e2 : st.msg (16 + 2) = st.msg 18 := rfl
    have e3 : st.msg (16 + 3) = st.msg 19 := rfl
    unfold u32_le
    rw [e1, e2, e3]
    simp only [Fin.ext_iff, Fin.val_zero]
    omega
  by_cases hz : u32_le st.msg 16 = 0
  · refine ⟨"disabled", ?_, by simp [hz], by simp [hz], hbytes⟩
    unfold print_message
    rw [if_neg (by omega), ht, hi, hv, htag, hz]
    simp
  · refine ⟨"enabled", ?_, by simp [hz], by simp [hz], hbytes⟩
    unfold print_message
    rw [if_neg (by omega), ht, hi, hv, htag]
    simp [hz]

/-- C7, an instance: footswitch 3 with the word `1` at offset 16 is enabled. -/
theorem footswitch_mapping_witness :
    print_message (fun _ => "")
        ⟨memOf [4, 0, 0, 0, 0, 0x40, 0, 0x13, 0, 0, 0, 0, 3, 0, 0, 0, 1, 0, 0, 0], 20⟩
      = ["Footswitch 3 enabled"] := by
  obtain ⟨state, hp, _, he, _⟩ := footswitch_mapping (fun _ => "")
    ⟨memOf [4, 0, 0, 0, 0, 0x40, 0, 0x13, 0, 0, 0, 0, 3, 0, 0, 0, 1, 0, 0, 0], 20⟩
    (by decide) (by decide)
  have hs : state = "enabled" := he.mpr (by decide)
  rw [hp, hs]
  decide

/-! ## Reassembly: one iteration -/

theorem expected_size_ge (m : Mem) : 4 ≤ expected_size m := by
  unfold expected_size
  omega

theorem message_complete_iff (st : State) :
    message_complete st = true ↔ st.msg_size = expected_size st.msg := by
  unfold message_complete
  rw [decide_eq_true_iff]
  exact eq_comm

/-- C2. For every prior state of the message buffer and every read of `ret > 0`
bytes whose declared payload length differs from `ret - 4`, the iteration leaves
`msg_size = 0`, writes nothing into `msg`, decodes no message and prints, after
the line `Got bogus packet, dump:`, the hex dump of all `ret` bytes of the raw
fragment from offset 0. -/
theorem malformed_discard (fmt_f : Nat → String) (st : State) (r : Read)
    (hret : 0 < r.ret) (hbad : (r.data_size : Int) ≠ r.ret - 4) :
    read_iter fmt_f st r = some ⟨⟨st.msg, 0⟩, Outcome.bogus,
      "Got bogus packet, dump:" ::
        (List.range ((r.ret.toNat + 15) / 16)).map (hex_row r.buf 0 r.ret.toNat)⟩ := by
  unfold read_iter
  rw [if_pos hret, if_pos hbad, print_buf_eq_rows]
  rfl

/-- C2, an instance: three bytes are accumulated and a fragment of 6 bytes
declares a payload of 5. -/
theorem malformed_discard_witness :
    (read_iter (fun _ => "") ⟨memOf [1, 2, 3], 3⟩ ⟨memOf [5, 0, 0, 0, 1, 2], 6⟩).map
        (fun it => (it.st.msg_size, it.st.msg 0, it.st.msg 1, it.st.msg 2, it.outcome, it.out))
      = some (0, 1, 2, 3, Outcome.bogus,
          ["Got bogus packet, dump:", "0000: 05 00 00 00 01 02"]) := by
  rw [malformed_discard (fun _ => "") ⟨memOf [1, 2, 3], 3⟩ ⟨memOf [5, 0, 0, 0, 1, 2], 6⟩
    (by decide) (by decide)]
  rfl

/-- C3, the claim fails: from the empty buffer, one valid fragment with the
8-byte payload `00 00 00 00 00 00 00 00` leaves 8 bytes accumulated while the
declared total of the message is 4. -/
theorem length_invariant_counterexample :
    (read_message (fun _ => "") ⟨memOf [], 0⟩
        [⟨memOf [8, 0, 0, 0, 0, 0, 0, 0, 0, 0, 0, 0], 12⟩]).map
          (fun run => (run.outcomes, run.st.msg_size, expected_size run.st.msg))
      = some ([Outcome.idle], 8, 4)
    ∧ ¬ ((8 : Nat) ≤ 4) := by
  decide

/-! ## Reassembly: a whole message -/

theorem payload_length (r : Read) : r.payload.length = r.data_size := by
  simp [Read.payload]

theorem accumulated_length (st : State) : (accumulated st).length = st.msg_size := by
  simp [accumulated]

theorem accumulated_append (st : State) (r : Read) :
    accumulated (append_payload st r) = accumulated st ++ r.payload := by
  unfold accumulated append_payload Read.payload
  simp only [List.range_add, List.map_append, List.map_map]
  congr 1
  · apply List.map_congr_left
    intro i hi
    have hi' : i < st.msg_size := List.mem_range.mp hi
    simp [memcpy]
    intro h
    omega
  · apply List.map_congr_left
    intro i hi
    have hi' : i < r.data_size := List.mem_range.mp hi
    simp [memcpy, hi']

theorem expected_size_accumulated (st : State) (rest : List Byte) (h : 2 ≤ st.msg_size) :
    expected_size st.msg = declared_total (accumulated st ++ rest) := by
  unfold expected_size declared_total
  have h0 : (accumulated st ++ rest).getD 0 0 = st.msg 0 := by
    rw [List.getD_append _ _ _ _ (by rw [accumulated_length]; omega)]
    simp [accumulated, List.getD_eq_getElem?_getD, List.getElem?_map, List.getElem?_range (show 0 < st.msg_size by omega)]
  have h1 : (accumulated st ++ rest).getD 1 0 = st.msg 1 := by
    rw [List.getD_append _ _ _ _ (by rw [accumulated_length]; omega)]
    simp [accumulated, List.getD_eq_getElem?_getD, List.getElem?_map, List.getElem?_range (show 1 < st.msg_size by omega)]
  rw [h0, h1]

theorem read_iter_valid (fmt_f : Nat → String) (st : State) (r : Read) (hv : r.valid)
    (hcap : st.msg_size + r.data_size ≤ MSG_CAPACITY) :
    read_iter fmt_f st r =
      if message_complete (append_payload st r) then
        some ⟨reset_message (append_payload st r), Outcome.complete,
          print_message fmt_f (append_payload st r)⟩
      else some ⟨append_payload st r, Outcome.idle, []⟩ := by
  unfold read_iter
  rw [if_pos hv.1, if_neg (by simpa using hv.2), if_pos hcap]

theorem expected_size_eq_total (st : State) (h : 2 ≤ st.msg_size) :
    expected_size st.msg = declared_total (accumulated st) := by
  have := expected_size_accumulated st [] h
  simpa using this

theorem declared_total_ge (p : List Byte) : 4 ≤ declared_total p := by
  unfold declared_total
  omega

theorem message_complete_iff_total (st : State) (r : Read) :
    message_complete (append_payload st r) = true ↔
      (accumulated st ++ r.payload).length = declared_total (accumulated st ++ r.payload) := by
  rw [message_complete_iff, ← accumulated_append, accumulated_length]
  by_cases h2 : 2 ≤ (append_payload st r).msg_size
  · rw [expected_size_eq_total _ h2]
  · have h1 := expected_size_ge (append_payload st r).msg
    have h3 := declared_total_ge (accumulated (append_payload st r))
    constructor <;> intro <;> omega

theorem well_formed_stream_take : ∀ (reads : List Read) (acc : List Byte) (k : Nat),
    well_formed_stream acc reads = true → well_formed_stream acc (reads.take k) = true := by
  intro reads
  induction reads with
  | nil => intro acc k _; simp [well_formed_stream]
  | cons r rs ih =>
    intro acc k h
    cases k with
    | zero => simp [well_formed_stream]
    | succ k =>
      rw [List.take_succ_cons]
      unfold well_formed_stream at h ⊢
      by_cases h1 : 0 < r.ret
      · rw [if_pos h1] at h ⊢
        by_cases h2 : (r.data_size : Int) ≠ r.ret - 4
        · rw [if_pos h2] at h ⊢
          exact ih _ k h
        · rw [if_neg h2] at h ⊢
          rw [Bool.and_eq_true] at h ⊢
          exact ⟨h.1, ih _ k h.2⟩
      · rw [if_neg h1] at h ⊢
        exact ih _ k h

theorem read_message_well_formed (fmt_f : Nat → String) : ∀ (reads : List Read) (st : State),
    st.msg_size < expected_size st.msg →
    well_formed_stream (accumulated st) reads = true →
    ∃ run, read_message fmt_f st reads = some run
      ∧ run.st.msg_size < expected_size run.st.msg := by
  intro reads
  induction reads with
  | nil =>
    intro st hlt _
    exact ⟨⟨st, [], []⟩, rfl, hlt⟩
  | cons r rs ih =>
    intro st hlt hok
    unfold well_formed_stream at hok
    by_cases hret : 0 < r.ret
    · rw [if_pos hret] at hok
      by_cases hbad : (r.data_size : Int) ≠ r.ret - 4
      · rw [if_pos hbad] at hok
        have hit : read_iter fmt_f st r = some ⟨reset_message st, Outcome.bogus,
            "Got bogus packet, dump:" :: print_buf r.buf 0 r.ret.toNat⟩ := by
          unfold read_iter
          rw [if_pos hret, if_pos hbad]
        have h0 : (reset_message st).msg_size < expected_size (reset_message st).msg := by
          have := expected_size_ge (reset_message st).msg
          show 0 < expected_size (reset_message st).msg
          omega
        obtain ⟨run, hrun, hr⟩ := ih (reset_message st) h0 hok
        refine ⟨⟨run.st, Outcome.bogus :: run.outcomes,
          ("Got bogus packet, dump:" :: print_buf r.buf 0 r.ret.toNat) ++ run.out⟩, ?_, hr⟩
        rw [read_message, hit]
        simp only [hrun]
        rw [if_pos (le_of_lt hret)]
      · rw [if_neg hbad] at hok
        simp only [Bool.and_eq_true, decide_eq_true_eq] at hok
        obtain ⟨⟨hle, hcap⟩, hrest⟩ := hok
        have hv : r.valid := ⟨hret, by simpa using hbad⟩
        have hlen : (accumulated st ++ r.payload).length = st.msg_size + r.data_size := by
          rw [List.length_append, accumulated_length, payload_length]
        have hit := read_iter_valid fmt_f st r hv (by rw [← hlen]; exact hcap)
        by_cases hc : message_complete (append_payload st r) = true
        · rw [if_pos hc] at hit
          rw [if_pos ((message_complete_iff_total st r).mp hc)] at hrest
          have h0 : (reset_message (append_payload st r)).msg_size
              < expected_size (reset_message (append_payload st r)).msg := by
            have := expected_size_ge (reset_message (append_payload st r)).msg
            show 0 < expected_size (reset_message (append_payload st r)).msg
            omega
          obtain ⟨run, hrun, hr⟩ := ih (reset_message (append_payload st r)) h0 hrest
          refine ⟨⟨run.st, Outcome.complete :: run.outcomes,
            print_message fmt_f (append_payload st r) ++ run.out⟩, ?_, hr⟩
          rw [read_message, hit]
          simp only [hrun]
          rw [if_pos (le_of_lt hret)]
        · rw [if_neg hc] at hit
          rw [if_neg (mt (message_complete_iff_total st r).mpr hc), ← accumulated_append] at hrest
          have h1 : (append_payload st r).msg_size < expected_size (append_payload st r).msg := by
            have hne := mt (message_complete_iff _).mpr hc
            by_cases h2 : 2 ≤ (append_payload st r).msg_size
            · rw [expected_size_eq_total _ h2, accumulated_append] at hne ⊢
              have hsz : (append_payload st r).msg_size = st.msg_size + r.data_size := rfl
              omega
            · have := expected_size_ge (append_payload st r).msg
              omega
          obtain ⟨run, hrun, hr⟩ := ih (append_payload st r) h1 hrest
          refine ⟨⟨run.st, Outcome.idle :: run.outcomes, [] ++ run.out⟩, ?_, hr⟩
          rw [read_message, hit]
          simp only [hrun]
          rw [if_pos (le_of_lt hret)]
    · rw [if_neg hret] at hok
      have hit : read_iter fmt_f st r = some ⟨st, Outcome.nothing, []⟩ := by
        unfold read_iter
        rw [if_neg hret]
      by_cases h0 : 0 ≤ r.ret
      · obtain ⟨run, hrun, hr⟩ := ih st hlt hok
        refine ⟨⟨run.st, Outcome.nothing :: run.outcomes, [] ++ run.out⟩, ?_, hr⟩
        rw [read_message, hit]
        simp only [hrun]
        rw [if_pos h0]
      · refine ⟨⟨st, [Outcome.nothing], []⟩, ?_, hlt⟩
        rw [read_message, hit]
        simp only []
        rw [if_neg h0]

/-- C3, amended. Over every stream of reads, valid or malformed, in which no
valid fragment carries the message in flight past its declared total (nor past
the 8192 bytes of `msg`), every prefix of the stream is handled from the empty
buffer and leaves the accumulated length below the declared total
`(msg[0] + 256*msg[1])*4 + 4`, a message that reaches its total being handed over
and reset on the spot; and a valid fragment appended in such a state is treated
as completing the message exactly when the accumulated bytes then number the
declared total of those bytes. -/
theorem length_invariant_amended (fmt_f : Nat → String) (m0 : Mem) (reads : List Read)
    (hok : well_formed_stream [] reads = true) (k : Nat) :
    ∃ run, read_message fmt_f ⟨m0, 0⟩ (reads.take k) = some run
      ∧ run.st.msg_size < expected_size run.st.msg
      ∧ (2 ≤ run.st.msg_size → run.st.msg_size ≤ expected_size run.st.msg)
      ∧ ∀ (r : Read) (it : Iter), r.valid → read_iter fmt_f run.st r = some it →
          (it.outcome = Outcome.complete ↔
            (accumulated run.st ++ r.payload).length
              = declared_total (accumulated run.st ++ r.payload)) := by
  have h0 : (⟨m0, 0⟩ : State).msg_size < expected_size (⟨m0, 0⟩ : State).msg := by
    have := expected_size_ge m0
    show 0 < expected_size m0
    omega
  obtain ⟨run, hrun, hlt⟩ := read_message_well_formed fmt_f (reads.take k) ⟨m0, 0⟩ h0
    (well_formed_stream_take reads [] k hok)
  refine ⟨run, hrun, hlt, fun _ => le_of_lt hlt, ?_⟩
  intro r it hv hit
  unfold read_iter at hit
  rw [if_pos hv.1, if_neg (by simpa using hv.2)] at hit
  rw [← message_complete_iff_total]
  split_ifs at hit with h3 h5
  · cases hit
    simpa using h5
  · cases hit
    simpa using h5

/-- C3 amended, an instance: the first of the two fragments of a 12-byte message
leaves 6 bytes accumulated, below the declared total 12. -/
theorem length_invariant_amended_witness :
    (read_message (fun _ => "") ⟨memOf [9, 9, 9], 0⟩ (two_fragment_reads.take 1)).map
        (fun run => decide (run.st.msg_size < expected_size run.st.msg)) = some true := by
  obtain ⟨run, hrun, hlt, _⟩ := length_invariant_amended (fun _ => "") (memOf [9, 9, 9])
    two_fragment_reads (by decide) 1
  rw [hrun]
  simp [hlt]

theorem message_complete_agree (m1 m2 : Mem) (n : Nat) (hag : agree m1 m2 n) :
    message_complete ⟨m1, n⟩ = message_complete ⟨m2, n⟩ := by
  by_cases h2 : 2 ≤ n
  · unfold message_complete expected_size
    simp only [hag 0 (by omega), hag 1 (by omega)]
  · have h1 : ¬ message_complete ⟨m1, n⟩ = true := by
      rw [message_complete_iff]
      have := expected_size_ge m1
      show ¬ n = expected_size m1
      omega
    have h2 : ¬ message_complete ⟨m2, n⟩ = true := by
      rw [message_complete_iff]
      have := expected_size_ge m2
      show ¬ n = expected_size m2
      omega
    rw [Bool.not_eq_true] at h1 h2
    rw [h1, h2]

theorem memcpy_agree (m1 m2 buf : Mem) (n d : Nat) (hag : agree m1 m2 n) :
    agree (memcpy m1 n buf 4 d) (memcpy m2 n buf 4 d) (n + d) := by
  intro i hi
  unfold memcpy
  by_cases hc : n ≤ i ∧ i < n + d
  · rw [if_pos hc, if_pos hc]
  · rw [if_neg hc, if_neg hc]
    exact hag i (by omega)

theorem memcpy_pointwise (m1 m2 buf : Mem) (n d i : Nat) :
    memcpy m1 n buf 4 d i = memcpy m2 n buf 4 d i
      ∨ (memcpy m1 n buf 4 d i = m1 i ∧ memcpy m2 n buf 4 d i = m2 i) := by
  unfold memcpy
  by_cases hc : n ≤ i ∧ i < n + d
  · left
    rw [if_pos hc, if_pos hc]
  · right
    rw [if_neg hc, if_neg hc]
    exact ⟨rfl, rfl⟩

theorem read_iter_couple (fmt_f : Nat → String) (m1 m2 : Mem) (n : Nat) (r : Read) (it1 : Iter)
    (hag : agree m1 m2 n) (h : read_iter fmt_f ⟨m1, n⟩ r = some it1) :
    ∃ it2, read_iter fmt_f ⟨m2, n⟩ r = some it2 ∧ it2.outcome = it1.outcome
      ∧ it2.st.msg_size = it1.st.msg_size
      ∧ agree it1.st.msg it2.st.msg it1.st.msg_size
      ∧ ∀ i, it1.st.msg i = it2.st.msg i
          ∨ (it1.st.msg i = m1 i ∧ it2.st.msg i = m2 i) := by
  have hmc : message_complete (append_payload ⟨m1, n⟩ r)
      = message_complete (append_payload ⟨m2, n⟩ r) :=
    message_complete_agree _ _ _ (memcpy_agree m1 m2 r.buf n r.data_size hag)
  unfold read_iter at h ⊢
  rw [← hmc]
  split_ifs at h ⊢ with h1 h2 h3 h5
  · cases h
    exact ⟨_, rfl, rfl, rfl, fun i hi => absurd hi (Nat.not_lt_zero i),
      fun i => Or.inr ⟨rfl, rfl⟩⟩
  · cases h
    exact ⟨_, rfl, rfl, rfl, fun i hi => absurd hi (Nat.not_lt_zero i),
      fun i => memcpy_pointwise m1 m2 r.buf n r.data_size i⟩
  · cases h
    exact ⟨_, rfl, rfl, rfl, memcpy_agree m1 m2 r.buf n r.data_size hag,
      fun i => memcpy_pointwise m1 m2 r.buf n r.data_size i⟩
  · cases h
    exact ⟨_, rfl, rfl, rfl, hag, fun i => Or.inr ⟨rfl, rfl⟩⟩

theorem read_message_couple (fmt_f : Nat → String) : ∀ (reads : List Read) (m1 m2 : Mem)
    (n : Nat) (run1 : Run), agree m1 m2 n →
    read_message fmt_f ⟨m1, n⟩ reads = some run1 →
    ∃ run2, read_message fmt_f ⟨m2, n⟩ reads = some run2 ∧ run2.outcomes = run1.outcomes
      ∧ run2.st.msg_size = run1.st.msg_size
      ∧ agree run1.st.msg run2.st.msg run1.st.msg_size
      ∧ ∀ i, run1.st.msg i = run2.st.msg i
          ∨ (run1.st.msg i = m1 i ∧ run2.st.msg i = m2 i) := by
  intro reads
  induction reads with
  | nil =>
    intro m1 m2 n run1 hag h
    simp only [read_message, Option.some.injEq] at h
    subst h
    exact ⟨⟨⟨m2, n⟩, [], []⟩, rfl, rfl, rfl, hag, fun i => Or.inr ⟨rfl, rfl⟩⟩
  | cons r rs ih =>
    intro m1 m2 n run1 hag h
    unfold read_message at h ⊢
    cases hit : read_iter fmt_f ⟨m1, n⟩ r with
    | none => simp [hit] at h
    | some it1 =>
      obtain ⟨it2, hit2, ho, hs, hag', hpw⟩ := read_iter_couple fmt_f m1 m2 n r it1 hag hit
      simp only [hit] at h
      simp only [hit2]
      split_ifs at h ⊢ with hr
      · cases hrun : read_message fmt_f it1.st rs with
        | none => simp [hrun] at h
        | some run1' =>
          simp only [hrun, Option.some.injEq] at h
          subst h
          obtain ⟨run2', hrun2, ho', hs', hag'', hpw'⟩ :=
            ih it1.st.msg it2.st.msg it1.st.msg_size run1' hag' hrun
          have hst2 : it2.st = ⟨it2.st.msg, it1.st.msg_size⟩ := by
            rw [← hs]
          rw [hst2]
          simp only [hrun2]
          refine ⟨_, rfl, by simp [ho, ho'], hs', hag'', ?_⟩
          intro i
          rcases hpw' i with e | ⟨e1, e2⟩
          · exact Or.inl e
          · rcases hpw i with e' | ⟨e1', e2'⟩
            · exact Or.inl (by simp only [e1, e2, e'])
            · exact Or.inr ⟨by simp only [e1, e1'], by simp only [e2, e2']⟩
      · simp only [Option.some.injEq] at h
        subst h
        exact ⟨_, rfl, by simp [ho], hs, hag', hpw⟩

theorem read_iter_complete (fmt_f : Nat → String) (st : State) (r : Read) (it : Iter)
    (h : read_iter fmt_f st r = some it) (hc : it.outcome = Outcome.complete) :
    message_complete (append_payload st r) = true
      ∧ it.st = reset_message (append_payload st r)
      ∧ it.out = print_message fmt_f (append_payload st r) := by
  unfold read_iter at h
  split_ifs at h with h1 h2 h3 h5 <;> cases h <;> first
    | exact ⟨h5, rfl, rfl⟩
    | cases hc

theorem read_iter_idle_out (fmt_f : Nat → String) (st : State) (r : Read) (it : Iter)
    (h : read_iter fmt_f st r = some it) (hi : it.outcome = Outcome.idle) : it.out = [] := by
  unfold read_iter at h
  split_ifs at h with h1 h2 h3 h5 <;> cases h <;> first
    | rfl
    | cases hi

theorem read_message_idle_out (fmt_f : Nat → String) : ∀ (reads : List Read) (st : State)
    (run : Run), read_message fmt_f st reads = some run →
    (∀ o ∈ run.outcomes, o = Outcome.idle) → run.out = [] := by
  intro reads
  induction reads with
  | nil =>
    intro st run h _
    simp only [read_message, Option.some.injEq] at h
    subst h
    rfl
  | cons r rs ih =>
    intro st run h hall
    unfold read_message at h
    cases hit : read_iter fmt_f st r with
    | none => simp [hit] at h
    | some it =>
      simp only [hit] at h
      split_ifs at h with hr
      · cases hrun : read_message fmt_f it.st rs with
        | none => simp [hrun] at h
        | some run1 =>
          simp only [hrun, Option.some.injEq] at h
          subst h
          have h1 := read_iter_idle_out fmt_f st r it hit (hall _ (List.mem_cons_self _ _))
          have h2 := ih it.st run1 hrun (fun o ho => hall o (List.mem_cons_of_mem _ ho))
          simp [h1, h2]
      · simp only [Option.some.injEq] at h
        subst h
        exact read_iter_idle_out fmt_f st r it hit (hall _ (List.mem_cons_self _ _))

/-- C9. From the empty buffer over any stale storage `m0`, let the reads `init`
followed by `last` end in a completed message. Fed again from the state left by the
reset after that completion, the same reads go the same way, end in a completed
message of the same length and bytes, print the same decoded output for it and
leave the same state, although `reset_message` left the earlier bytes in `msg`.
When the reads before `last` complete no message of their own, all that the two
runs print is the same. -/
theorem reassembly_idempotent (fmt_f : Nat → String) (m0 : Mem) (init : List Read)
    (last : Read) (run1 : Run) (it1 : Iter)
    (hrun : read_message fmt_f ⟨m0, 0⟩ init = some run1)
    (hit : read_iter fmt_f run1.st last = some it1)
    (hdone : it1.outcome = Outcome.complete) :
    ∃ run2 it2, read_message fmt_f it1.st init = some run2
      ∧ read_iter fmt_f run2.st last = some it2
      ∧ run2.outcomes = run1.outcomes
      ∧ it2.outcome = Outcome.complete
      ∧ (append_payload run2.st last).msg_size = (append_payload run1.st last).msg_size
      ∧ accumulated (append_payload run2.st last) = accumulated (append_payload run1.st last)
      ∧ it2.out = it1.out
      ∧ it2.st = it1.st
      ∧ ((∀ o ∈ run1.outcomes, o = Outcome.idle) →
          run2.out ++ it2.out = run1.out ++ it1.out) := by
  obtain ⟨_, hst1, hout1⟩ := read_iter_complete fmt_f run1.st last it1 hit hdone
  have hz : it1.st = ⟨it1.st.msg, 0⟩ := by rw [hst1]; rfl
  obtain ⟨run2, hrun2, ho, hs, hag, hpw⟩ := read_message_couple fmt_f init m0 it1.st.msg 0 run1
    (fun i hi => absurd hi (Nat.not_lt_zero i)) hrun
  have hr1 : run1.st = ⟨run1.st.msg, run1.st.msg_size⟩ := rfl
  rw [hr1] at hit
  obtain ⟨it2, hit2, ho2, hs2, _, hpw2⟩ := read_iter_couple fmt_f run1.st.msg run2.st.msg
    run1.st.msg_size last it1 hag hit
  have hr2 : (⟨run2.st.msg, run1.st.msg_size⟩ : State) = run2.st := by rw [← hs]
  rw [hr2] at hit2
  have hdone2 : it2.outcome = Outcome.complete := ho2.trans hdone
  obtain ⟨_, hst2, hout2⟩ := read_iter_complete fmt_f run2.st last it2 hit2 hdone2
  have hmsg : it2.st.msg = it1.st.msg := by
    funext i
    rcases hpw2 i with e | ⟨e1, e2⟩
    · exact e.symm
    · rcases hpw i with e' | ⟨_, e2'⟩
      · rw [e1, e2, e']
      · rw [e2, e2']
  have hstate : it2.st = it1.st := by
    have h1 : it2.st = ⟨it2.st.msg, it2.st.msg_size⟩ := rfl
    rw [h1, hmsg, hs2]
  have happ : append_payload run2.st last = append_payload run1.st last := by
    have hm : (append_payload run2.st last).msg = (append_payload run1.st last).msg := by
      have a1 : it1.st.msg = (append_payload run1.st last).msg := by rw [hst1]; rfl
      have a2 : it2.st.msg = (append_payload run2.st last).msg := by rw [hst2]; rfl
      rw [← a1, ← a2, hmsg]
    have hn : (append_payload run2.st last).msg_size
        = (append_payload run1.st last).msg_size := by
      show run2.st.msg_size + last.data_size = run1.st.msg_size + last.data_size
      rw [hs]
    have e1 : append_payload run1.st last = ⟨(append_payload run1.st last).msg,
      (append_payload run1.st last).msg_size⟩ := rfl
    have e2 : append_payload run2.st last = ⟨(append_payload run2.st last).msg,
      (append_payload run2.st last).msg_size⟩ := rfl
    rw [e1, e2, hm, hn]
  have hrun2' : read_message fmt_f it1.st init = some run2 := by
    rw [hz]
    exact hrun2
  have hout : it2.out = it1.out := by rw [hout1, hout2, happ]
  refine ⟨run2, it2, hrun2', hit2, ho, hdone2, ?_, ?_, hout, hstate, ?_⟩
  · rw [happ]
  · rw [happ]
  · intro hall
    rw [read_message_idle_out fmt_f init ⟨m0, 0⟩ run1 hrun hall,
      read_message_idle_out fmt_f init it1.st run2 hrun2' (by rw [ho]; exact hall), hout]

/-- C9, an instance: the 12-byte message `preset: 5` in two fragments, fed a
second time from the state that the first run, started over stale storage, left
after its reset. -/
theorem reassembly_idempotent_witness :
    (read_message (fun _ => "")
        (reset_message (append_payload (append_payload ⟨memOf [9, 9, 9], 0⟩
          ⟨memOf [6, 0, 0, 0, 2, 0, 0, 0, 0, 0x40], 10⟩)
          ⟨memOf [6, 0, 0, 0, 0, 0x27, 5, 0, 0, 0], 10⟩))
        [⟨memOf [6, 0, 0, 0, 2, 0, 0, 0, 0, 0x40], 10⟩]).bind
      (fun run2 =>
        (read_iter (fun _ => "") run2.st ⟨memOf [6, 0, 0, 0, 0, 0x27, 5, 0, 0, 0], 10⟩).map
          (fun it2 => (run2.outcomes, it2.outcome, it2.out)))
      = some ([Outcome.idle], Outcome.complete, ["preset: 5"]) := by
  obtain ⟨run2, it2, h1, h2, h3, h4, _, _, h7, _, _⟩ := reassembly_idempotent (fun _ => "")
    (memOf [9, 9, 9]) [⟨memOf [6, 0, 0, 0, 2, 0, 0, 0, 0, 0x40], 10⟩]
    ⟨memOf [6, 0, 0, 0, 0, 0x27, 5, 0, 0, 0], 10⟩
    ⟨append_payload ⟨memOf [9, 9, 9], 0⟩ ⟨memOf [6, 0, 0, 0, 2, 0, 0, 0, 0, 0x40], 10⟩,
      [Outcome.idle], []⟩
    ⟨reset_message (append_payload (append_payload ⟨memOf [9, 9, 9], 0⟩
        ⟨memOf [6, 0, 0, 0, 2, 0, 0, 0, 0, 0x40], 10⟩)
        ⟨memOf [6, 0, 0, 0, 0, 0x27, 5, 0, 0, 0], 10⟩),
      Outcome.complete, ["preset: 5"]⟩
    rfl rfl rfl
  rw [h1]
  simp only [Option.some_bind, h2, Option.map_some', h3, h4, h7]

/-- C10, the code at the failing input: two reads of at most 8192 bytes, both
valid fragments, deliver the first 8188 and the last 8 bytes of a message whose
declared total is 8196. The first payload fills `msg[0 .. 8187]`; at the second
one `msg_size + data_size` is 8196, past the 8192 bytes of `msg`, and nothing in
`read_message` stops the `memcpy`. -/
theorem append_past_msg_capacity :
    (∀ r ∈ oversized_message_reads, r.valid ∧ r.ret ≤ BUF_CAPACITY)
      ∧ (read_message (fun _ => "") ⟨memOf [], 0⟩ (oversized_message_reads.take 1)).map
          (fun run => (run.outcomes, run.st.msg_size, expected_size run.st.msg))
          = some ([Outcome.idle], 8188, 8196)
      ∧ (oversized_message_reads.drop 1).map (fun r => 8188 + r.data_size) = [8196]
      ∧ (read_message (fun _ => "") ⟨memOf [], 0⟩ oversized_message_reads).isNone = true := by
  decide

end HD500
